import Mathlib

/-!
Verification of the Connect6 game-record core (`Record` and its binary codec)
against its natural-language specification.

The definitions below are a shallow embedding of the TypeScript source:
JavaScript numbers are modelled as exact integers (`Int` / `Nat`), the
`Map<number, Stone>` is modelled as an insertion-ordered association list
(matching JS `Map` semantics: `set` replaces in place or appends, `delete`
removes the unique entry with the key, `get` looks the key up), and the
variable-length integer codec — an external library in the source — is
modelled from the specification (unsigned LEB128 with a 32-bit decode
ceiling).
-/

/-- An axis on the board. -/
inductive Axis where
  | horizontal
  | diagonal
  | vertical
  | antiDiagonal
deriving DecidableEq

/-- All axes on the board, in the source's iteration order (`Axis.VALUES`). -/
def Axis.values : List Axis :=
  [Axis.horizontal, Axis.diagonal, Axis.vertical, Axis.antiDiagonal]

/-- Returns the unit vector in the direction of the axis. -/
def Axis.unitVector : Axis → Int × Int
  | Axis.horizontal => (1, 0)
  | Axis.diagonal => (1, 1)
  | Axis.vertical => (0, 1)
  | Axis.antiDiagonal => (1, -1)

/-- Maps an integer to a natural number (`zigzagEncode`). -/
def zigzagEncode (n : Int) : Nat :=
  (if 0 ≤ n then 2 * n else -2 * n - 1).toNat

/-- Maps a natural number to an integer, undoing `zigzagEncode`. -/
def zigzagDecode (n : Nat) : Int :=
  if n % 2 = 0 then ((n / 2 : Nat) : Int) else -(((n + 1) / 2 : Nat) : Int)

/-- Maps two natural numbers to one (`elegantPair`). -/
def elegantPair (x y : Nat) : Nat :=
  if x < y then y * y + x else x * x + x + y

/-- Maps one natural number to two, undoing `elegantPair`. -/
def elegantUnpair (z : Nat) : Nat × Nat :=
  let s := Nat.sqrt z
  let t := z - s * s
  if t < s then (t, s) else (s, t - s)

/-- A 2D point with integer coordinates. -/
structure Point where
  x : Int
  y : Int
deriving DecidableEq

/-- Maps the point to a natural number (`Point.index`). -/
def Point.index (p : Point) : Nat :=
  elegantPair (zigzagEncode p.x) (zigzagEncode p.y)

/-- Maps a natural number to a point, undoing `Point.index`. -/
def Point.fromIndex (i : Nat) : Point :=
  ⟨zigzagDecode (elegantUnpair i).1, zigzagDecode (elegantUnpair i).2⟩

/-- Returns the adjacent point in the direction of the axis. -/
def Point.adjacent (p : Point) (axis : Axis) (forward : Bool) : Point :=
  let d := axis.unitVector
  if forward then ⟨p.x + d.1, p.y + d.2⟩ else ⟨p.x - d.1, p.y - d.2⟩

/-- `k`-fold iteration of `Point.adjacent`, used to state properties of the
row-scanning loop. -/
def Point.shift (p : Point) (axis : Axis) (forward : Bool) : Nat → Point
  | 0 => p
  | k + 1 => (p.adjacent axis forward).shift axis forward k

/-- A contiguous row of stones on the board (`Row`), with inclusive
endpoints `start` and `stop` (named `end` in the source). -/
structure Row where
  start : Point
  stop : Point
deriving DecidableEq

/-- A stone on the board, either black or white. -/
inductive Stone where
  | black
  | white
deriving DecidableEq

/-- The wire value of a stone (`Stone.Black = 1`, `Stone.White = 2`). -/
def Stone.toNat : Stone → Nat
  | Stone.black => 1
  | Stone.white => 2

/-- Creates a stone from a number; the source throws a `RangeError`
(`'stone out of range'`) on any value other than 1 or 2. -/
def Stone.fromNumber (n : Nat) : Option Stone :=
  if n = 1 then some Stone.black
  else if n = 2 then some Stone.white
  else none

/-- A move made by one player or both players. `stone` carries one or two
placed positions (`pos: [Point] | [Point, Point]` in the source). -/
inductive Move where
  | stone (fst : Point) (snd : Option Point)
  | pass
  | win (pos : Point)
  | draw
  | resign (stone : Stone)
deriving DecidableEq

/-- Tests if the move is an ending move (Win, Draw or Resign). -/
def Move.isEnding : Move → Bool
  | Move.win _ => true
  | Move.draw => true
  | Move.resign _ => true
  | _ => false

/-- Whether the move is a Stone move. -/
def Move.isStone : Move → Bool
  | Move.stone _ _ => true
  | _ => false

/-- Whether the move is a Stone move with two positions. -/
def Move.isDoubleStone : Move → Bool
  | Move.stone _ (some _) => true
  | _ => false

/-- The list of positions of a Stone move (`move.pos`), empty otherwise. -/
def Move.posList : Move → List Point
  | Move.stone fst snd => fst :: snd.toList
  | _ => []

/-- `Map.get` of the JS `Map<number, Stone>`. -/
def mapGet (m : List (Nat × Stone)) (k : Nat) : Option Stone :=
  match m with
  | [] => none
  | e :: rest => if e.1 = k then some e.2 else mapGet rest k

/-- `Map.set` of the JS `Map<number, Stone>`: replaces the value in place
if the key is present, otherwise appends the entry. -/
def mapSet (m : List (Nat × Stone)) (k : Nat) (v : Stone) : List (Nat × Stone) :=
  if (mapGet m k).isSome then
    m.map fun e => if e.1 = k then (k, v) else e
  else m ++ [(k, v)]

/-- `Map.delete` of the JS `Map<number, Stone>`: removes the first (hence,
keys being unique, the only) entry with the key. -/
def mapDelete (m : List (Nat × Stone)) (k : Nat) : List (Nat × Stone) :=
  match m with
  | [] => []
  | e :: rest => if e.1 = k then rest else e :: mapDelete rest k

/-- A Connect6 game record on an infinite board: occupied map `map`,
move list `mov` and current move index `idx`. -/
structure Record where
  map : List (Nat × Stone)
  mov : List Move
  idx : Nat
deriving DecidableEq

/-- The empty record (`new Record()`). -/
def Record.empty : Record := ⟨[], [], 0⟩

/-- Returns the previous move (if any). -/
def Record.prevMove (r : Record) : Option Move :=
  if 0 < r.idx then r.mov[r.idx - 1]? else none

/-- Returns the next move (if any). -/
def Record.nextMove (r : Record) : Option Move :=
  if r.idx < r.mov.length then r.mov[r.idx]? else none

/-- Tests if there is any move in the past. -/
def Record.hasPast (r : Record) : Bool :=
  decide (0 < r.idx)

/-- Tests if the game is ended. -/
def Record.isEnded (r : Record) : Bool :=
  match r.prevMove with
  | some m => m.isEnding
  | none => false

/-- Returns the stone to play at the given move index. -/
def Record.turnAt (index : Nat) : Stone :=
  if index % 2 = 0 then Stone.black else Stone.white

/-- Returns the current stone to play. -/
def Record.turn (r : Record) : Stone :=
  Record.turnAt r.idx

/-- Returns the stone at the given position (if any). -/
def Record.stoneAt (r : Record) (pos : Point) : Option Stone :=
  mapGet r.map pos.index

/-- The `while (this.stoneAt(next) == stone)` loop of `Record.scanRow`,
with explicit fuel. Returns the last matching point and the number of
matching steps. The occupied map is finite, so any fuel of at least
`r.map.length` is enough for the loop to run to completion. -/
def scanLoop (r : Record) (stone : Stone) (axis : Axis) (forward : Bool) :
    Nat → Point → Point × Nat
  | 0, cur => (cur, 0)
  | fuel + 1, cur =>
    let next := cur.adjacent axis forward
    if r.stoneAt next = some stone then
      let res := scanLoop r stone axis forward fuel next
      (res.1, res.2 + 1)
    else (cur, 0)

/-- Scans the row through a position in the direction of the axis. -/
def Record.scanRow (r : Record) (pos : Point) (axis : Axis) : Row × Nat :=
  match r.stoneAt pos with
  | none => (⟨pos, pos⟩, 0)
  | some stone =>
    let fuel := r.map.length
    let b := scanLoop r stone axis false fuel pos
    let f := scanLoop r stone axis true fuel pos
    (⟨b.1, f.1⟩, 1 + b.2 + f.2)

/-- The `for (const axis of Axis.VALUES)` loop of `Record.findWinRow`. -/
def findWinRowGo (r : Record) (pos : Point) : List Axis → Option Row
  | [] => none
  | a :: rest =>
    let res := r.scanRow pos a
    if 6 ≤ res.2 then some res.1 else findWinRowGo r pos rest

/-- Searches for a win row through the point. -/
def Record.findWinRow (r : Record) (pos : Point) : Option Row :=
  match r.stoneAt pos with
  | none => none
  | some _ => findWinRowGo r pos Axis.values

/-- Makes a move, clearing moves in the future; returns whether the move
succeeded together with the resulting record (the source mutates in place
and returns the Boolean). -/
def Record.makeMove (r : Record) (m : Move) : Bool × Record :=
  if r.isEnded then (false, r)
  else
    match m with
    | Move.stone p1 p2 =>
      let pos := p1 :: p2.toList
      if r.idx = 0 ∧ pos.length ≠ 1 then (false, r)
      else if pos.any fun p => (r.stoneAt p).isSome then (false, r)
      else
        let stone := r.turn
        let newMap := pos.foldl (fun mp p => mapSet mp p.index stone) r.map
        (true, ⟨newMap, r.mov.take r.idx ++ [m], r.idx + 1⟩)
    | Move.win pos =>
      if (r.findWinRow pos).isSome then
        (true, ⟨r.map, r.mov.take r.idx ++ [m], r.idx + 1⟩)
      else (false, r)
    | _ => (true, ⟨r.map, r.mov.take r.idx ++ [m], r.idx + 1⟩)

/-- Undoes the previous move (if any). -/
def Record.undoMove (r : Record) : Option Move × Record :=
  match r.prevMove with
  | none => (none, r)
  | some prev =>
    match prev with
    | Move.stone p1 p2 =>
      let newMap := (p1 :: p2.toList).foldl (fun mp p => mapDelete mp p.index) r.map
      (some prev, ⟨newMap, r.mov, r.idx - 1⟩)
    | _ => (some prev, ⟨r.map, r.mov, r.idx - 1⟩)

/-- Redoes the next move (if any). Note that the source increments
`this.idx` *before* reading `this.turn()`, so the stone written back is
`turnAt (idx + 1)`. -/
def Record.redoMove (r : Record) : Option Move × Record :=
  match r.nextMove with
  | none => (none, r)
  | some next =>
    let stone := Record.turnAt (r.idx + 1)
    match next with
    | Move.stone p1 p2 =>
      let newMap := (p1 :: p2.toList).foldl (fun mp p => mapSet mp p.index stone) r.map
      (some next, ⟨newMap, r.mov, r.idx + 1⟩)
    | _ => (some next, ⟨r.map, r.mov, r.idx + 1⟩)

/-- The undo loop of `Record.jump`. -/
def Record.undoN (r : Record) : Nat → Record
  | 0 => r
  | n + 1 => (r.undoMove).2.undoN n

/-- The redo loop of `Record.jump`. -/
def Record.redoN (r : Record) : Nat → Record
  | 0 => r
  | n + 1 => (r.redoMove).2.redoN n

/-- Jumps to the given move index by undoing or redoing moves. -/
def Record.jump (r : Record) (index : Nat) : Bool × Record :=
  if r.mov.length < index then (false, r)
  else if index < r.idx then (true, r.undoN (r.idx - index))
  else (true, r.redoN (index - r.idx))

/-- Modelled from the spec: the body of the unsigned LEB128 varint encoder
of the external `@std/encoding/varint` library (spec §4.2: 7 payload bits
per byte, high bit = continuation, least-significant group first), with
structural fuel. Fuel `n` is enough to encode `n`, since the value shrinks
by a factor of 128 each step. -/
def encodeVarintAux : Nat → Nat → List Nat
  | 0, n => [n % 128]
  | fuel + 1, n =>
    if n < 128 then [n] else (n % 128 + 128) :: encodeVarintAux fuel (n / 128)

/-- Modelled from the spec: `encodeVarint` of `@std/encoding/varint`. -/
def encodeVarint (n : Nat) : List Nat :=
  encodeVarintAux n n

/-- Modelled from the spec: the raw LEB128 decode step, returning the value
and the remaining bytes (the source library works with a buffer and an
offset; we model the buffer from the offset on). Fails if the bytes end
before a byte with a clear high bit. -/
def decodeVarintCore : List Nat → Option (Nat × List Nat)
  | [] => none
  | b :: rest =>
    if b < 128 then some (b, rest)
    else
      match decodeVarintCore rest with
      | none => none
      | some (v, r) => some (v * 128 + b % 128, r)

/-- Modelled from the spec: `decodeVarint32` of `@std/encoding/varint`,
which fails (throws a `RangeError`) if the decoded value exceeds the
32-bit unsigned ceiling (spec §4.2). -/
def decodeVarint32 (buf : List Nat) : Option (Nat × List Nat) :=
  match decodeVarintCore buf with
  | none => none
  | some (v, r) => if v < 4294967296 then some (v, r) else none

/-- Serializes a move to bytes. If `compact`, omits the pass marker after
a 1-stone move. -/
def Move.serialize : Move → Bool → List Nat
  | Move.stone p1 p2, compact =>
    encodeVarint (p1.index + 7) ++
      match p2 with
      | some q => encodeVarint (q.index + 7)
      | none => if compact then [] else [0]
  | Move.pass, _ => [0]
  | Move.win pos, _ => 1 :: encodeVarint pos.index
  | Move.draw, _ => [2]
  | Move.resign s, _ => [3, s.toNat]

/-- Deserializes a move from bytes. If `first`, eagerly returns a 1-stone
move. The error strings are those thrown by the source (`RangeError`s);
`"varint"` stands for a decode failure inside the varint library. -/
def Move.deserialize (buf : List Nat) (first : Bool) : Except String (Move × List Nat) :=
  match decodeVarint32 buf with
  | none => Except.error "varint"
  | some (x, rest) =>
    if 7 ≤ x then
      let p1 := Point.fromIndex (x - 7)
      if first || rest.isEmpty then Except.ok (Move.stone p1 none, rest)
      else
        match decodeVarint32 rest with
        | none => Except.error "varint"
        | some (y, rest2) =>
          if 7 ≤ y then Except.ok (Move.stone p1 (some (Point.fromIndex (y - 7))), rest2)
          else if y = 0 then Except.ok (Move.stone p1 none, rest2)
          else Except.error "expected stone or pass"
    else if x = 1 then
      match decodeVarint32 rest with
      | none => Except.error "varint"
      | some (z, rest2) => Except.ok (Move.win (Point.fromIndex z), rest2)
    else if x = 3 then
      match rest with
      | [] => Except.error "expected stone"
      | b :: rest2 =>
        match Stone.fromNumber b with
        | none => Except.error "stone out of range"
        | some s => Except.ok (Move.resign s, rest2)
    else if x = 0 then Except.ok (Move.pass, rest)
    else if x = 2 then Except.ok (Move.draw, rest)
    else Except.error "unknown move kind"

/-- The `for (let i = 0; i < end; i++) Move.serialize(this.mov[i], buf, i == 0)`
loop of `Record.serialize`: the compact flag is true exactly for move 0. -/
def serializeMoves : List Move → Bool → List Nat
  | [], _ => []
  | m :: rest, isFirst => Move.serialize m isFirst ++ serializeMoves rest false

/-- Serializes the record to bytes. If `all`, includes all moves prefixed
with the current move index. -/
def Record.serialize (r : Record) (all : Bool) : List Nat :=
  (if all then encodeVarint r.idx else []) ++
    serializeMoves (r.mov.take (if all then r.mov.length else r.idx)) true

/-- The `while (i < buf.length)` replay loop of `Record.deserialize`, with
structural fuel. Every successful `Move.deserialize` consumes at least one
byte, so fuel `buf.length` is enough and the `"out of fuel"` branch is
unreachable from `Record.deserialize`. -/
def deserializeLoopAux : Nat → List Nat → Record → Except String Record
  | _, [], rec => Except.ok rec
  | 0, _ :: _, _ => Except.error "out of fuel"
  | fuel + 1, b :: bs, rec =>
    match Move.deserialize (b :: bs) (!rec.hasPast) with
    | Except.error e => Except.error e
    | Except.ok (m, rest) =>
      match rec.makeMove m with
      | (true, rec') => deserializeLoopAux fuel rest rec'
      | (false, _) => Except.error "move failed"

/-- Deserializes a record from bytes (replaying each decoded move through
`makeMove`, then jumping to the recorded move index when `all`). -/
def Record.deserialize (buf : List Nat) (all : Bool) : Except String Record :=
  if all then
    match decodeVarint32 buf with
    | none => Except.error "varint"
    | some (index, rest) =>
      match deserializeLoopAux rest.length rest Record.empty with
      | Except.error e => Except.error e
      | Except.ok rec =>
        match rec.jump index with
        | (true, rec') => Except.ok rec'
        | (false, _) => Except.error "move index exceeds total number of moves"
  else
    match deserializeLoopAux buf.length buf Record.empty with
    | Except.error e => Except.error e
    | Except.ok rec => Except.ok rec

/-- Records reachable from the empty record by successful `makeMove` calls. -/
inductive Reachable : Record → Prop
  | empty : Reachable Record.empty
  | step {r r' : Record} (m : Move) :
      Reachable r → r.makeMove m = (true, r') → Reachable r'

/-- Replays a list of moves through `makeMove` from a given record,
returning `none` as soon as one fails. -/
def applyMoves (r : Record) : List Move → Option Record
  | [] => some r
  | m :: ms =>
    match r.makeMove m with
    | (true, r') => applyMoves r' ms
    | (false, _) => none

/-- All varint values a move contributes to the wire fit under the 32-bit
decode ceiling. -/
def Move.bounded : Move → Bool
  | Move.stone p1 p2 =>
    decide (p1.index + 7 < 4294967296) &&
      match p2 with
      | some q => decide (q.index + 7 < 4294967296)
      | none => true
  | Move.win pos => decide (pos.index < 4294967296)
  | _ => true

/-- The Stone-move arity invariant claimed by the spec, as a Boolean
predicate: `moves[0]`, if a Stone move, has one position, and a Stone move
at a later index has two positions unless immediately followed by Pass. -/
def stoneArityInv (r : Record) : Bool :=
  (match r.mov[0]? with
    | some (Move.stone _ p2) => p2.isNone
    | _ => true) &&
  (List.range r.mov.length).all fun i =>
    if i = 0 then true
    else
      match r.mov[i]? with
      | some (Move.stone _ p2) => p2.isSome || (r.mov[i + 1]? == some Move.pass)
      | _ => true

/-! ## The coordinate indexer is a bijection -/

lemma zigzagDecode_encode (n : Int) : zigzagDecode (zigzagEncode n) = n := by
  unfold zigzagEncode zigzagDecode
  by_cases h : 0 ≤ n
  · rw [if_pos h]
    split <;> omega
  · rw [if_neg h]
    split <;> omega

lemma zigzagEncode_decode (m : Nat) : zigzagEncode (zigzagDecode m) = m := by
  unfold zigzagEncode zigzagDecode
  by_cases h : m % 2 = 0
  · rw [if_pos h]
    split <;> omega
  · rw [if_neg h]
    split <;> omega

lemma sqrt_eq_exact {a z : Nat} (h1 : a * a ≤ z) (h2 : z < (a + 1) * (a + 1)) :
    Nat.sqrt z = a := by
  have hle : a ≤ Nat.sqrt z := Nat.le_sqrt.mpr h1
  have hlt : Nat.sqrt z < a + 1 := Nat.sqrt_lt.mpr h2
  omega

lemma elegantUnpair_eq (z : Nat) :
    elegantUnpair z =
      if z - Nat.sqrt z * Nat.sqrt z < Nat.sqrt z
      then (z - Nat.sqrt z * Nat.sqrt z, Nat.sqrt z)
      else (Nat.sqrt z, z - Nat.sqrt z * Nat.sqrt z - Nat.sqrt z) := rfl

lemma elegantUnpair_pair (x y : Nat) : elegantUnpair (elegantPair x y) = (x, y) := by
  rw [elegantUnpair_eq]
  unfold elegantPair
  by_cases h : x < y
  · rw [if_pos h]
    have hs : Nat.sqrt (y * y + x) = y := sqrt_eq_exact (by omega) (by nlinarith)
    rw [hs]
    have ht : y * y + x - y * y = x := by omega
    rw [ht, if_pos h]
  · rw [if_neg h]
    have hy : y ≤ x := by omega
    have hs : Nat.sqrt (x * x + x + y) = x := sqrt_eq_exact (by omega) (by nlinarith)
    rw [hs]
    have ht : x * x + x + y - x * x = x + y := by omega
    rw [ht]
    have hx : ¬ (x + y < x) := by omega
    rw [if_neg hx]
    have : x + y - x = y := by omega
    rw [this]

lemma elegantPair_unpair (z : Nat) :
    elegantPair (elegantUnpair z).1 (elegantUnpair z).2 = z := by
  have h1 : Nat.sqrt z * Nat.sqrt z ≤ z := Nat.sqrt_le z
  have h2 : z < (Nat.sqrt z + 1) * (Nat.sqrt z + 1) := Nat.lt_succ_sqrt z
  rw [elegantUnpair_eq]
  by_cases h : z - Nat.sqrt z * Nat.sqrt z < Nat.sqrt z
  · rw [if_pos h]
    show elegantPair (z - Nat.sqrt z * Nat.sqrt z) (Nat.sqrt z) = z
    unfold elegantPair
    rw [if_pos h]
    omega
  · rw [if_neg h]
    show elegantPair (Nat.sqrt z) (z - Nat.sqrt z * Nat.sqrt z - Nat.sqrt z) = z
    unfold elegantPair
    have e2 : z < Nat.sqrt z * Nat.sqrt z + 2 * Nat.sqrt z + 1 := by nlinarith
    have hx : ¬ (Nat.sqrt z < z - Nat.sqrt z * Nat.sqrt z - Nat.sqrt z) := by omega
    rw [if_neg hx]
    omega

lemma Point.fromIndex_index (p : Point) : Point.fromIndex p.index = p := by
  unfold Point.fromIndex Point.index
  rw [elegantUnpair_pair]
  cases p
  simp [zigzagDecode_encode]

lemma Point.index_fromIndex (i : Nat) : (Point.fromIndex i).index = i := by
  unfold Point.fromIndex Point.index
  simp only [zigzagEncode_decode]
  exact elegantPair_unpair i

/-! ## Row scanning: the loop computes maximal runs -/

/-- The signed step vector of a scan direction. -/
def dirVec (a : Axis) (forward : Bool) : Int × Int :=
  if forward then a.unitVector else (-(a.unitVector).1, -(a.unitVector).2)

lemma adjacent_eq (p : Point) (a : Axis) (f : Bool) :
    p.adjacent a f = ⟨p.x + (dirVec a f).1, p.y + (dirVec a f).2⟩ := by
  cases f <;> cases a <;>
    simp [Point.adjacent, dirVec, Axis.unitVector, Point.mk.injEq] <;> omega

lemma shift_coord (p : Point) (a : Axis) (f : Bool) (k : Nat) :
    p.shift a f k = ⟨p.x + k * (dirVec a f).1, p.y + k * (dirVec a f).2⟩ := by
  induction k generalizing p with
  | zero => simp [Point.shift]
  | succ n ih =>
    rw [Point.shift, ih, adjacent_eq]
    rw [Point.mk.injEq]
    constructor <;> push_cast <;> ring

lemma dirVec_ne (a : Axis) (f : Bool) :
    (dirVec a f).1 ≠ 0 ∨ (dirVec a f).2 ≠ 0 := by
  cases f <;> cases a <;> decide

lemma shift_inj (p : Point) (a : Axis) (f : Bool) {k1 k2 : Nat}
    (h : p.shift a f k1 = p.shift a f k2) : k1 = k2 := by
  rw [shift_coord, shift_coord, Point.mk.injEq] at h
  rcases dirVec_ne a f with hd | hd
  · have h1 : (k1 : Int) * (dirVec a f).1 = (k2 : Int) * (dirVec a f).1 :=
      add_left_cancel h.1
    exact_mod_cast mul_right_cancel₀ hd h1
  · have h1 : (k1 : Int) * (dirVec a f).2 = (k2 : Int) * (dirVec a f).2 :=
      add_left_cancel h.2
    exact_mod_cast mul_right_cancel₀ hd h1

lemma Point.index_inj {p q : Point} (h : p.index = q.index) : p = q := by
  have hc := congrArg Point.fromIndex h
  rwa [Point.fromIndex_index, Point.fromIndex_index] at hc

lemma mapGet_isSome_mem {m : List (Nat × Stone)} {k : Nat}
    (h : (mapGet m k).isSome = true) : k ∈ m.map Prod.fst := by
  induction m with
  | nil => simp [mapGet] at h
  | cons e rest ih =>
    rw [mapGet] at h
    by_cases he : e.1 = k
    · simp [← he]
    · rw [if_neg he] at h
      simp [ih h]

/-- Since the occupied map is finite and the points along a scan direction
are pairwise distinct, some point within `r.map.length` steps fails to
match: the scan loop always stops before exhausting that much fuel. -/
lemma scan_stop (r : Record) (s : Stone) (a : Axis) (f : Bool) (p : Point)
    (hp : r.stoneAt p = some s) :
    ∃ k, k < r.map.length ∧ r.stoneAt (p.shift a f (k + 1)) ≠ some s := by
  by_contra hcon
  push_neg at hcon
  have hocc : ∀ k, k ≤ r.map.length →
      (mapGet r.map ((p.shift a f k).index)).isSome = true := by
    intro k hk
    cases k with
    | zero =>
      show (mapGet r.map ((p.shift a f 0).index)).isSome = true
      have : p.shift a f 0 = p := rfl
      rw [this]
      unfold Record.stoneAt at hp
      rw [hp]
      rfl
    | succ j =>
      have hj := hcon j (by omega)
      unfold Record.stoneAt at hj
      rw [hj]
      rfl
  have hinj : Function.Injective fun k : Nat => (p.shift a f k).index :=
    fun k1 k2 hk => shift_inj p a f (Point.index_inj hk)
  have hnodup : ((List.range (r.map.length + 1)).map
      fun k => (p.shift a f k).index).Nodup :=
    (List.nodup_range _).map hinj
  have hsub : ∀ x ∈ (List.range (r.map.length + 1)).map
      fun k => (p.shift a f k).index, x ∈ r.map.map Prod.fst := by
    intro x hx
    simp only [List.mem_map, List.mem_range] at hx
    obtain ⟨k, hk, rfl⟩ := hx
    exact mapGet_isSome_mem (hocc k (by omega))
  have hcard1 : ((List.range (r.map.length + 1)).map
      fun k => (p.shift a f k).index).toFinset.card = r.map.length + 1 := by
    rw [List.toFinset_card_of_nodup hnodup]
    simp
  have hcard2 : ((List.range (r.map.length + 1)).map
      fun k => (p.shift a f k).index).toFinset ⊆ (r.map.map Prod.fst).toFinset := by
    intro x hx
    exact List.mem_toFinset.mpr (hsub x (List.mem_toFinset.mp hx))
  have hcard3 := Finset.card_le_card hcard2
  have hcard4 : (r.map.map Prod.fst).toFinset.card ≤ r.map.length := by
    calc (r.map.map Prod.fst).toFinset.card ≤ (r.map.map Prod.fst).length :=
          List.toFinset_card_le _
    _ = r.map.length := by simp
  omega

/-- Characterization of one direction of the scan loop, given that a
non-matching point exists within the fuel: the returned count is the
length of the maximal matching run. -/
lemma scanLoop_spec (r : Record) (s : Stone) (a : Axis) (f : Bool) :
    ∀ fuel cur, (∃ k, k < fuel ∧ r.stoneAt (cur.shift a f (k + 1)) ≠ some s) →
      (∀ k, 1 ≤ k → k ≤ (scanLoop r s a f fuel cur).2 →
          r.stoneAt (cur.shift a f k) = some s) ∧
        r.stoneAt (cur.shift a f ((scanLoop r s a f fuel cur).2 + 1)) ≠ some s := by
  intro fuel
  induction fuel with
  | zero =>
    intro cur h
    obtain ⟨k, hk, -⟩ := h
    omega
  | succ n ih =>
    intro cur h
    by_cases hnext : r.stoneAt (cur.adjacent a f) = some s
    · have hred : scanLoop r s a f (n + 1) cur
          = ((scanLoop r s a f n (cur.adjacent a f)).1,
              (scanLoop r s a f n (cur.adjacent a f)).2 + 1) := by
        simp only [scanLoop]
        rw [if_pos hnext]
      obtain ⟨k, hk, hkne⟩ := h
      have hk0 : k ≠ 0 := by
        intro h0
        subst h0
        exact hkne (by simpa [Point.shift] using hnext)
      obtain ⟨j, rfl⟩ : ∃ j, k = j + 1 := ⟨k - 1, by omega⟩
      have hnexth : ∃ k, k < n ∧
          r.stoneAt ((cur.adjacent a f).shift a f (k + 1)) ≠ some s :=
        ⟨j, by omega, hkne⟩
      obtain ⟨ih1, ih2⟩ := ih (cur.adjacent a f) hnexth
      rw [hred]
      constructor
      · intro k h1 h2
        simp only at h2
        cases k with
        | zero => omega
        | succ kk =>
          cases kk with
          | zero => simpa [Point.shift] using hnext
          | succ kkk =>
            show r.stoneAt ((cur.adjacent a f).shift a f (kkk + 1)) = some s
            exact ih1 (kkk + 1) (by omega) (by omega)
      · exact ih2
    · have hred : scanLoop r s a f (n + 1) cur = (cur, 0) := by
        simp only [scanLoop]
        rw [if_neg hnext]
      rw [hred]
      refine ⟨fun k h1 h2 => by omega, ?_⟩
      simpa [Point.shift] using hnext

/-- `scanRow` through an occupied point returns `1 + nb + nf` where `nb`
and `nf` are the lengths of the maximal matching runs backward and
forward. -/
lemma scanRow_len {r : Record} {p : Point} {s : Stone} (a : Axis)
    (hp : r.stoneAt p = some s) :
    ∃ nb nf, (r.scanRow p a).2 = 1 + nb + nf ∧
      (∀ k, k ≤ nb → r.stoneAt (p.shift a false k) = some s) ∧
      r.stoneAt (p.shift a false (nb + 1)) ≠ some s ∧
      (∀ k, k ≤ nf → r.stoneAt (p.shift a true k) = some s) ∧
      r.stoneAt (p.shift a true (nf + 1)) ≠ some s := by
  obtain ⟨hb1, hb2⟩ :=
    scanLoop_spec r s a false r.map.length p (scan_stop r s a false p hp)
  obtain ⟨hf1, hf2⟩ :=
    scanLoop_spec r s a true r.map.length p (scan_stop r s a true p hp)
  refine ⟨(scanLoop r s a false r.map.length p).2,
    (scanLoop r s a true r.map.length p).2, ?_, ?_, hb2, ?_, hf2⟩
  · unfold Record.scanRow
    rw [hp]
  · intro k hk
    cases k with
    | zero => exact hp
    | succ j => exact hb1 (j + 1) (by omega) hk
  · intro k hk
    cases k with
    | zero => exact hp
    | succ j => exact hf1 (j + 1) (by omega) hk

lemma scanRow_six_iff {r : Record} {p : Point} {s : Stone} (a : Axis)
    (hp : r.stoneAt p = some s) :
    6 ≤ (r.scanRow p a).2 ↔
      ∃ i j : Nat, 5 ≤ i + j ∧
        (∀ k, k ≤ i → r.stoneAt (p.shift a false k) = some s) ∧
        (∀ k, k ≤ j → r.stoneAt (p.shift a true k) = some s) := by
  obtain ⟨nb, nf, hlen, hb, hbfail, hf, hffail⟩ := scanRow_len a hp
  constructor
  · intro h6
    exact ⟨nb, nf, by omega, hb, hf⟩
  · rintro ⟨i, j, hij, hbi, hfj⟩
    have hnb : i ≤ nb := by
      by_contra hcon
      exact hbfail (hbi (nb + 1) (by omega))
    have hnf : j ≤ nf := by
      by_contra hcon
      exact hffail (hfj (nf + 1) (by omega))
    omega

lemma findWinRowGo_isSome (r : Record) (p : Point) :
    ∀ axes : List Axis, (findWinRowGo r p axes).isSome = true ↔
      ∃ a ∈ axes, 6 ≤ (r.scanRow p a).2 := by
  intro axes
  induction axes with
  | nil => simp [findWinRowGo]
  | cons a rest ih =>
    by_cases h : 6 ≤ (r.scanRow p a).2
    · simp [findWinRowGo, h]
    · simp [findWinRowGo, h, ih]

/-! ## Varint codec lemmas -/

lemma encodeVarintAux_ne_nil (fuel n : Nat) : encodeVarintAux fuel n ≠ [] := by
  cases fuel with
  | zero => simp [encodeVarintAux]
  | succ f =>
    unfold encodeVarintAux
    split <;> simp

lemma encodeVarint_ne_nil (n : Nat) : encodeVarint n ≠ [] :=
  encodeVarintAux_ne_nil n n

lemma decodeVarintCore_encodeAux :
    ∀ fuel n rest, n ≤ fuel →
      decodeVarintCore (encodeVarintAux fuel n ++ rest) = some (n, rest) := by
  intro fuel
  induction fuel with
  | zero =>
    intro n rest h
    have : n = 0 := by omega
    subst this
    simp [encodeVarintAux, decodeVarintCore]
  | succ f ih =>
    intro n rest h
    by_cases h128 : n < 128
    · simp [encodeVarintAux, h128, decodeVarintCore]
    · have hdiv : n / 128 ≤ f := by omega
      rw [encodeVarintAux, if_neg h128]
      rw [List.cons_append]
      unfold decodeVarintCore
      rw [if_neg (by omega), ih _ _ hdiv]
      have hm : (n % 128 + 128) % 128 = n % 128 := by omega
      simp only [Option.some.injEq, Prod.mk.injEq, hm]
      refine ⟨by omega, trivial⟩

lemma decodeVarint32_encode {n : Nat} (h : n < 4294967296) (rest : List Nat) :
    decodeVarint32 (encodeVarint n ++ rest) = some (n, rest) := by
  unfold decodeVarint32 encodeVarint
  rw [decodeVarintCore_encodeAux n n rest le_rfl]
  simp [h]

lemma Move.serialize_ne_nil (m : Move) (c : Bool) : m.serialize c ≠ [] := by
  cases m with
  | stone p1 p2 =>
    simp only [Move.serialize]
    intro hcontra
    exact encodeVarint_ne_nil _ (List.append_eq_nil.mp hcontra).1
  | pass => simp [Move.serialize]
  | win pos => simp [Move.serialize]
  | draw => simp [Move.serialize]
  | resign s => simp [Move.serialize]

/-! ## Move-level codec roundtrip -/

lemma Move.deserialize_serialize (m : Move) (c : Bool) (rest : List Nat)
    (hb : m.bounded = true) (hc : c = true → m.isDoubleStone = false) :
    Move.deserialize (m.serialize c ++ rest) c = Except.ok (m, rest) := by
  cases m with
  | stone p1 p2 =>
    cases p2 with
    | none =>
      have hb1 : p1.index + 7 < 4294967296 := by
        simpa [Move.bounded] using hb
      cases c with
      | true =>
        have h1 := decodeVarint32_encode hb1 rest
        simp [Move.serialize, Move.deserialize, h1, Nat.le_add_left,
          Point.fromIndex_index]
      | false =>
        have h1 := decodeVarint32_encode hb1 (0 :: rest)
        have h2 : decodeVarint32 (0 :: rest) = some (0, rest) := by
          simp [decodeVarint32, decodeVarintCore]
        simp [Move.serialize, Move.deserialize, h1, h2, Nat.le_add_left,
          Point.fromIndex_index]
    | some q =>
      cases c with
      | true => simp [Move.isDoubleStone] at hc
      | false =>
        have hb1 : p1.index + 7 < 4294967296 := by
          have := hb
          simp [Move.bounded] at this
          omega
        have hb2 : q.index + 7 < 4294967296 := by
          have := hb
          simp [Move.bounded] at this
          omega
        have h1 := decodeVarint32_encode hb1 (encodeVarint (q.index + 7) ++ rest)
        have h2 := decodeVarint32_encode hb2 rest
        have hne : (encodeVarint (q.index + 7) ++ rest).isEmpty = false := by
          obtain ⟨b, bs, hbs⟩ :=
            List.exists_cons_of_ne_nil (encodeVarint_ne_nil (q.index + 7))
          rw [hbs]
          rfl
        simp [Move.serialize, Move.deserialize, h1, h2, hne, Nat.le_add_left,
          Point.fromIndex_index]
  | pass => simp [Move.serialize, Move.deserialize, decodeVarint32, decodeVarintCore]
  | draw => simp [Move.serialize, Move.deserialize, decodeVarint32, decodeVarintCore]
  | win pos =>
    have hb1 : pos.index < 4294967296 := by simpa [Move.bounded] using hb
    have h1 : decodeVarint32 (1 :: (encodeVarint pos.index ++ rest))
        = some (1, encodeVarint pos.index ++ rest) := by
      simp [decodeVarint32, decodeVarintCore]
    have h2 := decodeVarint32_encode hb1 rest
    simp [Move.serialize, Move.deserialize, h1, h2, Point.fromIndex_index]
  | resign s =>
    cases s <;>
      simp [Move.serialize, Move.deserialize, decodeVarint32, decodeVarintCore,
        Stone.toNat, Stone.fromNumber]

/-! ## Record replay lemmas -/

lemma makeMove_true_parts {r r' : Record} {m : Move} (h : r.makeMove m = (true, r')) :
    r'.idx = r.idx + 1 ∧ r'.mov = r.mov.take r.idx ++ [m] := by
  cases m with
  | stone p1 p2 =>
    simp only [Record.makeMove] at h
    split at h
    · exact absurd h (by simp)
    · split at h
      · exact absurd h (by simp)
      · split at h
        · exact absurd h (by simp)
        · rw [Prod.mk.injEq] at h
          rw [← h.2]
          exact ⟨rfl, rfl⟩
  | win pos =>
    simp only [Record.makeMove] at h
    split at h
    · exact absurd h (by simp)
    · split at h
      · rw [Prod.mk.injEq] at h
        rw [← h.2]
        exact ⟨rfl, rfl⟩
      · exact absurd h (by simp)
  | pass =>
    simp only [Record.makeMove] at h
    split at h
    · exact absurd h (by simp)
    · rw [Prod.mk.injEq] at h
      rw [← h.2]
      exact ⟨rfl, rfl⟩
  | draw =>
    simp only [Record.makeMove] at h
    split at h
    · exact absurd h (by simp)
    · rw [Prod.mk.injEq] at h
      rw [← h.2]
      exact ⟨rfl, rfl⟩
  | resign s =>
    simp only [Record.makeMove] at h
    split at h
    · exact absurd h (by simp)
    · rw [Prod.mk.injEq] at h
      rw [← h.2]
      exact ⟨rfl, rfl⟩

lemma makeMove_zero_not_double {r r' : Record} {p1 q : Point}
    (h0 : r.idx = 0) (h : r.makeMove (Move.stone p1 (some q)) = (true, r')) :
    False := by
  simp only [Record.makeMove] at h
  split at h
  · exact absurd h (by simp)
  · rw [if_pos ⟨h0, by simp⟩] at h
    exact absurd h (by simp)

lemma not_hasPast_iff (r : Record) : (!r.hasPast) = true ↔ r.idx = 0 := by
  simp [Record.hasPast]

lemma applyMoves_append (r : Record) (l1 l2 : List Move) :
    applyMoves r (l1 ++ l2) = (applyMoves r l1).bind fun x => applyMoves x l2 := by
  induction l1 generalizing r with
  | nil => simp [applyMoves]
  | cons m tl ih =>
    simp only [List.cons_append, applyMoves]
    rcases hmk : r.makeMove m with ⟨b, r₁⟩
    cases b
    · simp
    · simp [ih]

lemma reachable_parts {R : Record} (h : Reachable R) :
    R.idx = R.mov.length ∧ applyMoves Record.empty R.mov = some R := by
  induction h with
  | empty => exact ⟨rfl, rfl⟩
  | step m hr hmk ih =>
    obtain ⟨hidx, happ⟩ := ih
    obtain ⟨h1, h2⟩ := makeMove_true_parts hmk
    constructor
    · rw [h1, h2, hidx, List.take_length]
      simp
    · rw [h2, hidx, List.take_length, applyMoves_append, happ]
      simp [applyMoves, hmk]

lemma deserializeLoopAux_replay :
    ∀ (ms : List Move) (fuel : Nat) (r R : Record),
      (∀ m ∈ ms, Move.bounded m = true) →
      applyMoves r ms = some R →
      (serializeMoves ms (!r.hasPast)).length ≤ fuel →
      deserializeLoopAux fuel (serializeMoves ms (!r.hasPast)) r = Except.ok R := by
  intro ms
  induction ms with
  | nil =>
    intro fuel r R _ happ _
    simp only [applyMoves, Option.some.injEq] at happ
    subst happ
    simp [serializeMoves, deserializeLoopAux]
  | cons m tl ih =>
    intro fuel r R hb happ hfuel
    simp only [applyMoves] at happ
    rcases hmk : r.makeMove m with ⟨b, r₁⟩
    rw [hmk] at happ
    cases b
    · exact absurd happ (by simp)
    · simp only at happ
      have hbm : m.bounded = true := hb m (by simp)
      have hbtl : ∀ x ∈ tl, Move.bounded x = true := fun x hx => hb x (by simp [hx])
      have hconcat :
          serializeMoves (m :: tl) (!r.hasPast)
            = m.serialize (!r.hasPast) ++ serializeMoves tl false := rfl
      have hdes :
          Move.deserialize (m.serialize (!r.hasPast) ++ serializeMoves tl false)
            (!r.hasPast) = Except.ok (m, serializeMoves tl false) := by
        refine Move.deserialize_serialize m (!r.hasPast) (serializeMoves tl false) hbm ?_
        intro hflag
        cases m with
        | stone p1 p2 =>
          cases p2 with
          | none => rfl
          | some q =>
            exact absurd hmk
              (fun hcontra =>
                makeMove_zero_not_double ((not_hasPast_iff r).mp hflag) hcontra)
        | pass => rfl
        | win pos => rfl
        | draw => rfl
        | resign s => rfl
      have hflag1 : (!r₁.hasPast) = false := by
        have h1 := (makeMove_true_parts hmk).1
        simp [Record.hasPast]
        omega
      obtain ⟨bhd, bs, hcons⟩ :=
        List.exists_cons_of_ne_nil (Move.serialize_ne_nil m (!r.hasPast))
      have hlen1 : 1 ≤ (m.serialize (!r.hasPast)).length := by
        rw [hcons]
        simp
      rw [hconcat] at hfuel ⊢
      rw [hcons] at hfuel ⊢
      rcases fuel with _ | f
      · exact absurd hfuel (by simp)
      · rw [hcons, List.cons_append] at hdes
        rw [List.cons_append]
        unfold deserializeLoopAux
        rw [hdes]
        simp only [hmk]
        have := ih f r₁ R hbtl happ
        rw [hflag1] at this
        refine this ?_
        rw [hcons] at hlen1
        simp only [List.length_cons, List.length_append] at hfuel
        omega

lemma jump_self {R : Record} (h : R.idx = R.mov.length) : R.jump R.idx = (true, R) := by
  unfold Record.jump
  rw [if_neg (by omega), if_neg (by omega)]
  simp [Record.redoN]

/-- C1 (amended). Serializing a reachable record with `all = true` and
deserializing the bytes reconstructs the record exactly — hence with
identical move list, cursor and occupied map — provided every encoded
varint value (stone or win position index plus the tag offset, and the
move count) fits below the 32-bit decode ceiling of the varint codec. -/
theorem record_serialize_roundtrip (R : Record) (h : Reachable R)
    (hb : ∀ m ∈ R.mov, Move.bounded m = true) (hlen : R.mov.length < 4294967296) :
    Record.deserialize (R.serialize true) true = Except.ok R := by
  obtain ⟨hidx, happ⟩ := reachable_parts h
  have hser : R.serialize true = encodeVarint R.idx ++ serializeMoves R.mov true := by
    unfold Record.serialize
    simp [List.take_length]
  rw [hser]
  unfold Record.deserialize
  rw [if_pos rfl]
  have hidx32 : R.idx < 4294967296 := by omega
  rw [decodeVarint32_encode hidx32]
  have hflag : (!Record.empty.hasPast) = true := rfl
  have hloop := deserializeLoopAux_replay R.mov
    (serializeMoves R.mov (!Record.empty.hasPast)).length Record.empty R hb
    (by
      have : applyMoves Record.empty R.mov = some R := happ
      exact this)
    le_rfl
  rw [hflag] at hloop
  simp only [hloop, jump_self hidx]

/-- C1 (counterexample). The round-trip claim fails as stated on a record
that is reachable by a single legal `makeMove` yet contains a stone whose
encoded position index exceeds the 32-bit varint decode ceiling:
deserialization aborts with a varint decode error instead of returning the
record. -/
theorem record_roundtrip_counterexample :
    Reachable ((Record.empty.makeMove (Move.stone ⟨131072, 0⟩ none)).2) ∧
      Record.deserialize
          (((Record.empty.makeMove (Move.stone ⟨131072, 0⟩ none)).2).serialize true) true
        = Except.error "varint" := by
  constructor
  · exact Reachable.step (Move.stone ⟨131072, 0⟩ none) Reachable.empty (by decide)
  · rfl

/-- C1 (witness). The amended round-trip theorem applied to the concrete
one-move record with a stone at the origin. -/
theorem record_serialize_roundtrip_witness :
    Record.deserialize
        (((Record.empty.makeMove (Move.stone ⟨0, 0⟩ none)).2).serialize true) true
      = Except.ok ((Record.empty.makeMove (Move.stone ⟨0, 0⟩ none)).2) :=
  record_serialize_roundtrip _
    (Reachable.step (Move.stone ⟨0, 0⟩ none) Reachable.empty (by decide))
    (by decide) (by decide)

/-- C2. `Point.index` and `Point.fromIndex` are mutually inverse: decoding
the index of any point (with exact integer coordinates) gives the point
back, and encoding the point decoded from any natural number gives that
number back. -/
theorem point_index_bijection :
    (∀ p : Point, Point.fromIndex p.index = p) ∧
      ∀ i : Nat, (Point.fromIndex i).index = i :=
  ⟨Point.fromIndex_index, Point.index_fromIndex⟩

/-- C3 (code bug evaluation). On the record holding a single black stone at
the origin, `undoMove` followed by `redoMove` restores the cursor but puts
back a *white* stone: `redoMove` computes the stone as the turn at the
already-incremented cursor, so every redone stone gets the opposite color
of the one originally placed. -/
theorem redo_after_undo_flips_color :
    ((Record.empty.makeMove (Move.stone ⟨0, 0⟩ none)).2.stoneAt ⟨0, 0⟩
        = some Stone.black) ∧
      ((((Record.empty.makeMove (Move.stone ⟨0, 0⟩ none)).2.undoMove).2.redoMove).2.idx
        = (Record.empty.makeMove (Move.stone ⟨0, 0⟩ none)).2.idx) ∧
      ((((Record.empty.makeMove (Move.stone ⟨0, 0⟩ none)).2.undoMove).2.redoMove).2.stoneAt ⟨0, 0⟩
        = some Stone.white) := by
  decide

/-- C4. On a non-ended record, `makeMove` with a Stone move any of whose
target positions is already occupied returns `false` and leaves the record
(occupied map, move list and cursor) unchanged: every position is checked
before any is placed. -/
theorem makeMove_occupied_fails (r : Record) (p1 : Point) (p2 : Option Point)
    (hne : r.isEnded = false)
    (hocc : ((p1 :: p2.toList).any fun q => (r.stoneAt q).isSome) = true) :
    r.makeMove (Move.stone p1 p2) = (false, r) := by
  simp [Record.makeMove, hne, hocc]

/-- C4 (witness). A second stone on the origin is rejected without change. -/
theorem makeMove_occupied_fails_witness :
    (Record.empty.makeMove (Move.stone ⟨0, 0⟩ none)).2.makeMove
        (Move.stone ⟨0, 0⟩ (some ⟨1, 0⟩))
      = (false, (Record.empty.makeMove (Move.stone ⟨0, 0⟩ none)).2) :=
  makeMove_occupied_fails _ ⟨0, 0⟩ (some ⟨1, 0⟩) (by decide) (by decide)

/-- C5. On a record whose move immediately preceding the cursor is an
ending move (Win, Draw or Resign), `makeMove` returns `false` for every
move of every kind and leaves the record unchanged. -/
theorem makeMove_ended_fails (r : Record) (m pm : Move)
    (hp : r.prevMove = some pm) (he : pm.isEnding = true) :
    r.makeMove m = (false, r) := by
  have hend : r.isEnded = true := by
    unfold Record.isEnded
    rw [hp]
    exact he
  simp [Record.makeMove, hend]

/-- C5 (witness). After an opening resignation, a pass is rejected. -/
theorem makeMove_ended_fails_witness :
    (Record.empty.makeMove (Move.resign Stone.black)).2.makeMove Move.pass
      = (false, (Record.empty.makeMove (Move.resign Stone.black)).2) :=
  makeMove_ended_fails _ Move.pass (Move.resign Stone.black) (by decide) (by decide)

/-- C7. On a record with cursor 0 (and hence an empty occupied map), a
two-position Stone move is rejected without change, while a one-position
Stone move succeeds, leaving cursor 1 and the position occupied by Black. -/
theorem makeMove_opening_arity (r : Record) (p1 p2 q : Point)
    (hidx : r.idx = 0) (hmap : r.map = []) :
    r.makeMove (Move.stone p1 (some p2)) = (false, r) ∧
      (r.makeMove (Move.stone q none)).1 = true ∧
      (r.makeMove (Move.stone q none)).2.idx = 1 ∧
      (r.makeMove (Move.stone q none)).2.stoneAt q = some Stone.black := by
  have hend : r.isEnded = false := by
    unfold Record.isEnded Record.prevMove
    rw [if_neg (by omega)]
  refine ⟨?_, ?_⟩
  · simp only [Record.makeMove, hend, Bool.false_eq_true, if_false]
    rw [if_pos ⟨hidx, by simp⟩]
  · simp [Record.makeMove, hend, hidx, hmap, Record.stoneAt, mapGet, mapSet,
      Record.turn, Record.turnAt]

/-- C7 (witness). The opening-arity theorem at the empty record. -/
theorem makeMove_opening_arity_witness :
    Record.empty.makeMove (Move.stone ⟨0, 0⟩ (some ⟨1, 0⟩)) = (false, Record.empty) ∧
      (Record.empty.makeMove (Move.stone ⟨2, 0⟩ none)).1 = true ∧
      (Record.empty.makeMove (Move.stone ⟨2, 0⟩ none)).2.idx = 1 ∧
      (Record.empty.makeMove (Move.stone ⟨2, 0⟩ none)).2.stoneAt ⟨2, 0⟩
        = some Stone.black :=
  makeMove_opening_arity Record.empty ⟨0, 0⟩ ⟨1, 0⟩ ⟨2, 0⟩ rfl rfl

/-- C9. Whenever the first varint of the input decodes to a value below
the tag offset 7 that is none of the fixed tags Pass 0, Win 1, Draw 2,
Resign 3 (that is, to 4, 5 or 6), `Move.deserialize` fails with the
decode error `'unknown move kind'`, for either value of the first-move
flag. -/
theorem deserialize_unknown_kind (buf : List Nat) (x : Nat) (rest : List Nat)
    (first : Bool) (hdec : decodeVarint32 buf = some (x, rest))
    (hlt : x < 7) (h0 : x ≠ 0) (h1 : x ≠ 1) (h2 : x ≠ 2) (h3 : x ≠ 3) :
    Move.deserialize buf first = Except.error "unknown move kind" := by
  unfold Move.deserialize
  simp only [hdec]
  rw [if_neg (by omega), if_neg h1, if_neg h3, if_neg h0, if_neg h2]

/-- C9 (witness). Decoding the single byte 4 fails with the error. -/
theorem deserialize_unknown_kind_witness :
    Move.deserialize [4] true = Except.error "unknown move kind" :=
  deserialize_unknown_kind [4] 4 [] true (by decide) (by decide) (by decide)
    (by decide) (by decide) (by decide)

/-- C10. A successful `makeMove` with a Pass, Win, Draw or Resign move
leaves the occupied map untouched; only the move list (truncated to the
cursor, with the move appended) and the cursor (incremented) change. -/
theorem makeMove_nonstone_frame (r : Record) (m : Move) (r' : Record)
    (hm : m.isStone = false) (h : r.makeMove m = (true, r')) :
    r'.map = r.map ∧ r'.mov = r.mov.take r.idx ++ [m] ∧ r'.idx = r.idx + 1 := by
  cases m with
  | stone p1 p2 => simp [Move.isStone] at hm
  | win pos =>
    simp only [Record.makeMove] at h
    split at h
    · exact absurd h (by simp)
    · split at h
      · rw [Prod.mk.injEq] at h
        rw [← h.2]
        exact ⟨rfl, rfl, rfl⟩
      · exact absurd h (by simp)
  | pass =>
    simp only [Record.makeMove] at h
    split at h
    · exact absurd h (by simp)
    · rw [Prod.mk.injEq] at h
      rw [← h.2]
      exact ⟨rfl, rfl, rfl⟩
  | draw =>
    simp only [Record.makeMove] at h
    split at h
    · exact absurd h (by simp)
    · rw [Prod.mk.injEq] at h
      rw [← h.2]
      exact ⟨rfl, rfl, rfl⟩
  | resign s =>
    simp only [Record.makeMove] at h
    split at h
    · exact absurd h (by simp)
    · rw [Prod.mk.injEq] at h
      rw [← h.2]
      exact ⟨rfl, rfl, rfl⟩

/-- C10 (witness). A pass on the empty record changes only moves and cursor. -/
theorem makeMove_nonstone_frame_witness :
    (Record.empty.makeMove Move.pass).2.map = Record.empty.map ∧
      (Record.empty.makeMove Move.pass).2.mov
        = Record.empty.mov.take Record.empty.idx ++ [Move.pass] ∧
      (Record.empty.makeMove Move.pass).2.idx = Record.empty.idx + 1 :=
  makeMove_nonstone_frame Record.empty Move.pass
    (Record.empty.makeMove Move.pass).2 (by decide) (by decide)

/-- C6. `findWinRow` returns a row exactly when the point holds a stone
and at least one of the four axes carries a consecutive run of that stone
of length at least 6 through the point (expressed as backward and forward
matching runs of lengths `i` and `j` with `i + j + 1 ≥ 6`); if the point
is empty or every axis's run has length at most 5, it returns nothing. -/
theorem findWinRow_iff_run (r : Record) (p : Point) :
    (r.findWinRow p).isSome = true ↔
      ∃ s, r.stoneAt p = some s ∧ ∃ a ∈ Axis.values, ∃ i j : Nat, 5 ≤ i + j ∧
        (∀ k, k ≤ i → r.stoneAt (p.shift a false k) = some s) ∧
        (∀ k, k ≤ j → r.stoneAt (p.shift a true k) = some s) := by
  rcases hp : r.stoneAt p with - | s
  · unfold Record.findWinRow
    rw [hp]
    simp only [Option.isSome_none, Bool.false_eq_true, false_iff]
    rintro ⟨s, hs, -⟩
    exact absurd hs (by simp)
  · unfold Record.findWinRow
    rw [hp]
    rw [findWinRowGo_isSome]
    constructor
    · rintro ⟨a, ha, h6⟩
      exact ⟨s, rfl, a, ha, (scanRow_six_iff a hp).mp h6⟩
    · rintro ⟨s', hs', a, ha, i, j, hij, hbi, hfj⟩
      obtain rfl : s = s' := by injection hs'
      exact ⟨a, ha, (scanRow_six_iff a hp).mpr ⟨i, j, hij, hbi, hfj⟩⟩

/-- C8 (counterexample). The claimed invariant fails: the record reached by
the two legal moves `Stone [(0,0)]` then `Stone [(1,0)]` has a one-position
Stone move at index 1 that is not followed by a Pass move, since `makeMove`
never requires a later one-position Stone move to be followed by Pass. -/
theorem stone_arity_counterexample :
    ¬ ∀ R : Record, Reachable R → stoneArityInv R = true := by
  intro hall
  have h1 : Reachable (⟨[(0, Stone.black)], [Move.stone ⟨0, 0⟩ none], 1⟩ : Record) :=
    Reachable.step (Move.stone ⟨0, 0⟩ none) Reachable.empty (by decide)
  have h2 : Reachable (⟨[(0, Stone.black), (6, Stone.white)],
      [Move.stone ⟨0, 0⟩ none, Move.stone ⟨1, 0⟩ none], 2⟩ : Record) :=
    Reachable.step (Move.stone ⟨1, 0⟩ none) h1 (by decide)
  exact absurd (hall _ h2) (by decide)

/-- C8 (amended). In every reachable record, `moves[0]`, if a Stone move,
has exactly one position; Stone moves at later indices may have either one
or two positions (a one-position Stone move need not be followed by Pass). -/
theorem first_stone_move_single (R : Record) (hr : Reachable R)
    (p1 : Point) (p2 : Option Point)
    (hm : R.mov[0]? = some (Move.stone p1 p2)) : p2 = none := by
  revert p1 p2
  induction hr with
  | empty =>
    intro p1 p2 hm
    simp [Record.empty] at hm
  | @step r r' m hr hmk ih =>
    intro p1 p2 hm
    obtain ⟨h1, h2⟩ := makeMove_true_parts hmk
    obtain ⟨hidx, -⟩ := reachable_parts hr
    rw [h2] at hm
    rcases Nat.eq_zero_or_pos r.idx with hz | hpos
    · rw [hz] at hm
      simp only [List.take_zero, List.nil_append] at hm
      have hm' : m = Move.stone p1 p2 := by
        simpa using hm
      subst hm'
      cases p2 with
      | none => rfl
      | some q => exact absurd hmk (fun hc => makeMove_zero_not_double hz hc)
    · rw [hidx, List.take_length] at hm
      rw [List.getElem?_append, if_pos (by omega : (0 : Nat) < r.mov.length)] at hm
      exact ih p1 p2 hm

/-- C8 (witness of the amended claim). The one-move record with a stone at
the origin has a single-position first move. -/
theorem first_stone_move_single_witness :
    (⟨[(0, Stone.black)], [Move.stone ⟨0, 0⟩ none], 1⟩ : Record).mov[0]?
        = some (Move.stone ⟨0, 0⟩ none) ∧
      (none : Option Point) = none :=
  ⟨by decide,
    first_stone_move_single
      (⟨[(0, Stone.black)], [Move.stone ⟨0, 0⟩ none], 1⟩ : Record)
      (Reachable.step (Move.stone ⟨0, 0⟩ none) Reachable.empty (by decide))
      ⟨0, 0⟩ none (by decide)⟩
